import Mathlib

/-!
A verification development for the SQL pattern-matching and substitution engine
in src/SqlTranslate.cpp (SQLRender). Strings are embedded as `List Char`; the
fallible parts of the C++ (thrown exceptions, out-of-bounds accesses) are
modelled with `Except CppError`.
-/

set_option linter.unusedVariables false

deriving instance DecidableEq for Except

/-- A lexical token produced by the tokenizer: half-open offsets
`[start, endPos)` into the string that was tokenized, plus the corresponding
text (the source's `Token` struct; `end` is renamed `endPos`). -/
structure Token where
  start : Nat
  endPos : Nat
  text : List Char
deriving Repr, DecidableEq

/-- A compiled search-pattern element (the source's `Block`). -/
structure Block where
  text : List Char
  isVariable : Bool
deriving Repr, DecidableEq

/-- Result of a successful search (the source's `MatchedPattern`): offsets into
the searched string plus the variable bindings, an association list ordered by
key, modelling the `std::map<String, String>`. -/
structure MatchedPattern where
  start : Nat
  endPos : Nat
  variableToValue : List (List Char × List Char)
deriving Repr, DecidableEq

/-- Failure modes of the embedded C++ code: the `std::invalid_argument` thrown
by parseSearchPattern, the `std::out_of_range` thrown by `string::at` in
tokenize, and out-of-bounds vector indexing (undefined behaviour in the
source). -/
inductive CppError where
  | patternError : CppError
  | atOutOfRange : CppError
  | indexOOB : CppError
deriving Repr, DecidableEq

/-- The source's `sql.substr(pos, count)` (count clamped at the end of the
string, as in C++). -/
def substrC (s : List Char) (pos count : Nat) : List Char := (s.drop pos).take count

/-- `std::isalnum` (C locale) together with the extra characters `_` and `@`
that line 66 of the source treats as token characters. -/
def isTokenChar (c : Char) : Bool := c.isAlphanum || c = '_' || c = '@'

/-- `std::isspace` (C locale): space, tab, newline, vertical tab, form feed,
carriage return. -/
def isSpaceC (c : Char) : Bool :=
  c = ' ' || c = '\t' || c = '\n' || c = Char.ofNat 11 || c = Char.ofNat 12 || c = '\r'

/-- The scanning loop of `SqlTranslate::tokenize`. `rest` is the suffix of
`sql` from position `cursor` on, `prev` the character at `cursor - 1` (if any,
used for the `sql.at(cursor - 1) == '*'` test that closes a block comment), and
`start`, `commentType1`, `commentType2`, `tokens` are the loop variables of the
source. `.error .atOutOfRange` models the `std::out_of_range` thrown by
`sql.at(cursor + 1)` when a trailing `-` or `/` is inspected as a possible
comment opener (the guard `cursor < sql.length()` in the source is always true
inside the loop, so the lookahead is unguarded). -/
def tokLoop (sql : List Char) :
    List Char → Nat → Nat → Bool → Bool → Option Char → List Token →
    Except CppError (List Token)
  | [], cursor, start, _, _, _, tokens =>
    .ok (if start < cursor then
           tokens ++ [⟨start, cursor, substrC sql start (cursor - start)⟩]
         else tokens)
  | ch :: rest, cursor, start, commentType1, commentType2, prev, tokens =>
    match commentType1, commentType2 with
    | true, c2 =>
      if ch = '\n' then
        tokLoop sql rest (cursor + 1) (cursor + 1) false c2 (some ch) tokens
      else
        tokLoop sql rest (cursor + 1) start true c2 (some ch) tokens
    | false, true =>
      if ch = '/' ∧ prev = some '*' then
        tokLoop sql rest (cursor + 1) (cursor + 1) false false (some ch) tokens
      else
        tokLoop sql rest (cursor + 1) start false true (some ch) tokens
    | false, false =>
      -- the source tests !isalnum && != '_' && != '@' and has an implicit
      -- "keep scanning the token" else-branch; the branches are swapped here.
      -- `rest.head? = none` is sql.at(cursor + 1) throwing std::out_of_range.
      if isTokenChar ch then
        tokLoop sql rest (cursor + 1) start false false (some ch) tokens
      else
        if ch = '-' then
          if rest.head? = none then .error .atOutOfRange
          else if rest.head? = some '-' then
            tokLoop sql rest (cursor + 1) (cursor + 1) true false (some ch)
              (if start < cursor then
                 tokens ++ [⟨start, cursor, substrC sql start (cursor - start)⟩]
               else tokens)
          else
            tokLoop sql rest (cursor + 1) (cursor + 1) false false (some ch)
              ((if start < cursor then
                  tokens ++ [⟨start, cursor, substrC sql start (cursor - start)⟩]
                else tokens) ++ [⟨cursor, cursor + 1, [ch]⟩])
        else if ch = '/' then
          if rest.head? = none then .error .atOutOfRange
          else if rest.head? = some '*' then
            tokLoop sql rest (cursor + 1) (cursor + 1) false true (some ch)
              (if start < cursor then
                 tokens ++ [⟨start, cursor, substrC sql start (cursor - start)⟩]
               else tokens)
          else
            tokLoop sql rest (cursor + 1) (cursor + 1) false false (some ch)
              ((if start < cursor then
                  tokens ++ [⟨start, cursor, substrC sql start (cursor - start)⟩]
                else tokens) ++ [⟨cursor, cursor + 1, [ch]⟩])
        else if isSpaceC ch then
          tokLoop sql rest (cursor + 1) (cursor + 1) false false (some ch)
            (if start < cursor then
               tokens ++ [⟨start, cursor, substrC sql start (cursor - start)⟩]
             else tokens)
        else
          tokLoop sql rest (cursor + 1) (cursor + 1) false false (some ch)
            ((if start < cursor then
                tokens ++ [⟨start, cursor, substrC sql start (cursor - start)⟩]
              else tokens) ++ [⟨cursor, cursor + 1, [ch]⟩])

/-- `SqlTranslate::tokenize`. -/
def tokenize (sql : List Char) : Except CppError (List Token) :=
  tokLoop sql sql 0 0 false false none []

/-- Modelled from the spec: per-character ASCII lower-casing, the character
operation behind the `toLowerCase` helper, which lives in the missing
SqlTranslate.h / its utilities and is not under src/. -/
def lowerChar (c : Char) : Char :=
  if 65 ≤ c.toNat ∧ c.toNat ≤ 90 then Char.ofNat (c.toNat + 32) else c

/-- Modelled from the spec: `toLowerCase` (helper declared in the missing
header) lower-cases every character of the string; the spec says pattern and
subject are both lower-cased so that literal matching is case-insensitive. -/
def toLowerCase (s : List Char) : List Char := s.map lowerChar

/-- `SqlTranslate::parseSearchPattern`. The source reads `blocks[0]` and
`blocks[blocks.size() - 1]` without checking for emptiness; on an empty block
vector those are out-of-bounds vector accesses (undefined behaviour), modelled
as `.error .indexOOB`. -/
def parseSearchPattern (pattern : List Char) : Except CppError (List Block) :=
  match tokenize (toLowerCase pattern) with
  | .error e => .error e
  | .ok tokens =>
    match tokens.map (fun t =>
        { text := t.text,
          isVariable := decide (1 < t.text.length ∧ t.text.head? = some '@') : Block }) with
    | [] => .error .indexOOB
    | b0 :: bs =>
      if b0.isVariable || ((b0 :: bs).getLastD b0).isVariable then .error .patternError
      else .ok (b0 :: bs)

/-- `std::string::operator<`: lexicographic comparison by character, the key
order of the `std::map`. -/
def lexLt : List Char → List Char → Bool
  | [], [] => false
  | [], _ :: _ => true
  | _ :: _, [] => false
  | a :: as, b :: bs => if a < b then true else if b < a then false else lexLt as bs

/-- Insertion into the `std::map<String, String> variableToValue`: kept ordered
by key; `operator[]` overwrites an existing key. -/
def mapInsert : List (List Char × List Char) → List Char → List Char →
    List (List Char × List Char)
  | [], k, v => [(k, v)]
  | (k0, v0) :: rest, k, v =>
    if k = k0 then (k, v) :: rest
    else if lexLt k k0 then (k, v) :: (k0, v0) :: rest
    else (k0, v0) :: mapInsert rest k v

/-- The nesting-stack update performed by `SqlTranslate::search` (lines
139-150) on a token scanned while a variable is consuming, when the token does
not terminate the variable. -/
def nestUpdate (nestStack : List (List Char)) (t : List Char) : List (List Char) :=
  match nestStack with
  | top :: below =>
    if top = ['"'] ∨ top = ['\''] then
      if t = top then below else top :: below
    else if t = ['"'] ∨ t = ['\''] then t :: top :: below
    else if t = ['('] then t :: top :: below
    else if t = [')'] ∧ top = ['('] then below
    else top :: below
  | [] =>
    if t = ['"'] ∨ t = ['\''] then [t]
    else if t = ['('] then [t]
    else []

/-- The scanning loop of `SqlTranslate::search` over the tokens of the
lower-cased subject. Reads of `parsedPattern[i]` are modelled with `l[i]?`;
`.error .indexOOB` marks an out-of-bounds index (undefined behaviour in the
source). `mstart` models the `matchedPattern.start` field, unset (`none`)
until the first pattern block matches; a success that never set it returns the
(uninitialized-in-C++) value as 0. -/
def searchLoop (sql : List Char) (parsedPattern : List Block) :
    List Token → Nat → Nat → List (List Char) → Option Nat →
    List (List Char × List Char) → Except CppError (Option MatchedPattern)
  | [], _, _, _, _, _ => .ok none
  | token :: rest, matchCount, varStart, nestStack, mstart, acc =>
    match parsedPattern[matchCount]? with
    | none => .error .indexOOB
    | some blk =>
      if blk.isVariable then
        match parsedPattern[matchCount + 1]? with
        | none => .error .indexOOB
        | some nextBlk =>
          if nestStack = [] ∧ token.text = nextBlk.text then
            if matchCount + 2 = parsedPattern.length then
              .ok (some ⟨mstart.getD 0, token.endPos,
                mapInsert acc blk.text (substrC sql varStart (token.start - varStart))⟩)
            else
              match parsedPattern[matchCount + 2]? with
              | none => .error .indexOOB
              | some b2 =>
                searchLoop sql parsedPattern rest (matchCount + 2)
                  (if b2.isVariable then token.endPos else varStart) nestStack mstart
                  (mapInsert acc blk.text (substrC sql varStart (token.start - varStart)))
          else
            searchLoop sql parsedPattern rest matchCount varStart
              (nestUpdate nestStack token.text) mstart acc
      else
        if token.text = blk.text then
          if matchCount + 1 = parsedPattern.length then
            .ok (some ⟨(if matchCount = 0 then some token.start else mstart).getD 0,
              token.endPos, acc⟩)
          else
            match parsedPattern[matchCount + 1]? with
            | none => .error .indexOOB
            | some b2 =>
              searchLoop sql parsedPattern rest (matchCount + 1)
                (if b2.isVariable then token.endPos else varStart) nestStack
                (if matchCount = 0 then some token.start else mstart) acc
        else
          searchLoop sql parsedPattern rest 0 varStart nestStack mstart acc

/-- `SqlTranslate::search`: lower-case the subject, tokenize it, scan its
tokens; the original-case `sql` is retained and used only for slicing captured
values. -/
def search (sql : List Char) (parsedPattern : List Block) :
    Except CppError (Option MatchedPattern) :=
  match tokenize (toLowerCase sql) with
  | .error e => .error e
  | .ok tokens => searchLoop sql parsedPattern tokens 0 0 [] none []

/-- Fuelled scanner for `replaceAll`; the fuel bounds the number of characters
examined, so that the definition is structural and computes by kernel
reduction. -/
def replaceAllAux (pat t : List Char) : Nat → List Char → List Char
  | _, [] => []
  | 0, s => s
  | fuel + 1, c :: s =>
    if pat ≠ [] ∧ pat.isPrefixOf (c :: s) then
      t ++ replaceAllAux pat t fuel (List.drop pat.length (c :: s))
    else
      c :: replaceAllAux pat t fuel s

/-- Modelled from the spec: `replaceAll` (helper declared in the missing
header) replaces, left to right, every occurrence of `pat` in `s` by `t`,
resuming the scan just after the inserted replacement ("exact literal substring
replacement (not token-aware) wherever they occur"). -/
def replaceAll (s pat t : List Char) : List Char := replaceAllAux pat t s.length s

/-- The substitution loop of `SqlTranslate::searchAndReplace` (lines 177-180):
apply `replaceAll` to the template once for every bound variable, in the
`std::map` iteration order (ascending key). -/
def buildReplacement (replacePattern : List Char)
    (bindings : List (List Char × List Char)) : List Char :=
  bindings.foldl (fun r kv => replaceAll r kv.1 kv.2) replacePattern

/-- `SqlTranslate::searchAndReplace` with explicit fuel for its unbounded while
loop: `.ok none` means the loop was still running when the fuel ran out. -/
def searchAndReplace : Nat → List Char → List Block → List Char →
    Except CppError (Option (List Char))
  | 0, _, _, _ => .ok none
  | fuel + 1, sql, parsedPattern, replacePattern =>
    match search sql parsedPattern with
    | .error e => .error e
    | .ok none => .ok (some sql)
    | .ok (some m) =>
      searchAndReplace fuel
        (sql.take m.start ++ buildReplacement replacePattern m.variableToValue ++
          sql.drop m.endPos)
        parsedPattern replacePattern

/-- `SqlTranslate::translateSql`: compile and apply each rule in order,
threading the result of one rule into the next. -/
def translateSql (fuel : Nat) : List Char → List (List Char × List Char) →
    Except CppError (Option (List Char))
  | str, [] => .ok (some str)
  | str, (p, r) :: rest =>
    match parseSearchPattern p with
    | .error e => .error e
    | .ok parsedPattern =>
      match searchAndReplace fuel str parsedPattern r with
      | .error e => .error e
      | .ok none => .ok none
      | .ok (some s1) => translateSql fuel s1 rest

/-- Offsets form a well-formed half-open range inside `s`, and the token's text
is exactly the corresponding slice of `s`. -/
def goodToken (s : List Char) (t : Token) : Prop :=
  t.start < t.endPos ∧ t.endPos ≤ s.length ∧
    t.text = substrC s t.start (t.endPos - t.start)

/-- One token ends no later than the next begins. -/
def tokOrder (a b : Token) : Prop := a.endPos ≤ b.start

/-- A captured value is an original-case slice of the subject whose right end
is the start offset of some subject token (its terminator) and whose left end
is the end offset of some subject token (where the capture began), or 0. -/
def BindProp (sql : List Char) (ts0 : List Token) (kv : List Char × List Char) : Prop :=
  ∃ a b, a ≤ b ∧ b ≤ sql.length ∧
    (a = 0 ∨ ∃ t ∈ ts0, a = t.endPos) ∧ (∃ t ∈ ts0, b = t.start) ∧
    kv.2 = substrC sql a (b - a)

/-- Binding lists with every value lower-cased (keys come from the pattern and
are untouched). -/
def lowerBinds (l : List (List Char × List Char)) : List (List Char × List Char) :=
  l.map (fun kv => (kv.1, toLowerCase kv.2))

/-- Lower-case the captured values inside a search result. -/
def lowerRes : Except CppError (Option MatchedPattern) → Except CppError (Option MatchedPattern)
  | .ok (some m) => .ok (some ⟨m.start, m.endPos, lowerBinds m.variableToValue⟩)
  | .ok none => .ok none
  | .error e => .error e

/-- No rule of the set finds a further match in `s` (the spec's
"already-fully-translated" state: a rule set is non-self-matching on its own
output when the output satisfies this). -/
def noFurtherMatch (s : List Char) (rules : List (List Char × List Char)) : Prop :=
  ∀ pr ∈ rules, ∀ P, parseSearchPattern pr.1 = .ok P → search s P = .ok none

/-- A template decomposed into literal segments and variable-name occurrences,
used to analyse the substitution loop of searchAndReplace. -/
inductive TmplPiece where
  | seg : List Char → TmplPiece
  | hole : List Char → TmplPiece
deriving Repr, DecidableEq

/-- Flatten a decomposed template back into the template string. -/
def renderT : List TmplPiece → List Char
  | [] => []
  | .seg u :: ps => u ++ renderT ps
  | .hole n :: ps => n ++ renderT ps

/-- Effect of one replaceAll pass with pattern `k`, replacement `v` on a piece:
an occurrence of the name `k` becomes the literal segment `v`. -/
def applyOne (k v : List Char) : TmplPiece → TmplPiece
  | .seg u => .seg u
  | .hole n => if n = k then .seg v else .hole n

/-- Effect of sequentially applying a list of bindings to a piece. -/
def applyList (l : List (List Char × List Char)) (p : TmplPiece) : TmplPiece :=
  l.foldl (fun q kv => applyOne kv.1 kv.2 q) p

/-- First value bound to key `k` in an association list. -/
def lookupKey : List (List Char × List Char) → List Char → Option (List Char)
  | [], _ => none
  | (k0, v0) :: rest, k => if k = k0 then some v0 else lookupKey rest k

/-- The string contains no `@`. -/
def atFree (u : List Char) : Prop := '@' ∉ u

/-- A variable name: a leading `@` followed by an `@`-free tail. -/
def atName (n : List Char) : Prop := ∃ m, n = '@' :: m ∧ atFree m

instance (u : List Char) : Decidable (atFree u) :=
  inferInstanceAs (Decidable ('@' ∉ u))

instance (n : List Char) : Decidable (atName n) :=
  decidable_of_iff (n.head? = some '@' ∧ atFree n.tail)
    (by
      constructor
      · rintro ⟨h1, h2⟩
        cases n with
        | nil => exact Option.noConfusion h1
        | cons c m =>
          injection h1 with h1
          subst h1
          exact ⟨m, rfl, h2⟩
      · rintro ⟨m, hm, hfree⟩
        subst hm
        exact ⟨rfl, hfree⟩)

/-- Per-piece well-formedness for the substitution-order analysis: literal
segments are `@`-free; hole names are variable names not prefix-related to any
different binding key. -/
def pieceOK (L : List (List Char × List Char)) : TmplPiece → Prop
  | .seg u => atFree u
  | .hole n => atName n ∧ ∀ kv ∈ L, kv.1 ≠ n → ¬ kv.1 <+: n ∧ ¬ n <+: kv.1

instance (L : List (List Char × List Char)) (p : TmplPiece) : Decidable (pieceOK L p) :=
  match p with
  | .seg u => inferInstanceAs (Decidable (atFree u))
  | .hole n => inferInstanceAs
      (Decidable (atName n ∧ ∀ kv ∈ L, kv.1 ≠ n → ¬ kv.1 <+: n ∧ ¬ n <+: kv.1))

/-! ### Unfolding equations (all definitional) -/

theorem tokLoop_nil (sql : List Char) (cursor start : Nat) (c1 c2 : Bool)
    (prev : Option Char) (tokens : List Token) :
    tokLoop sql [] cursor start c1 c2 prev tokens =
      .ok (if start < cursor then
             tokens ++ [⟨start, cursor, substrC sql start (cursor - start)⟩]
           else tokens) := rfl

theorem tokLoop_cons_line (sql : List Char) (ch : Char) (rest : List Char)
    (cursor start : Nat) (c2 : Bool) (prev : Option Char) (tokens : List Token) :
    tokLoop sql (ch :: rest) cursor start true c2 prev tokens =
      if ch = '\n' then
        tokLoop sql rest (cursor + 1) (cursor + 1) false c2 (some ch) tokens
      else
        tokLoop sql rest (cursor + 1) start true c2 (some ch) tokens := rfl

theorem tokLoop_cons_block (sql : List Char) (ch : Char) (rest : List Char)
    (cursor start : Nat) (prev : Option Char) (tokens : List Token) :
    tokLoop sql (ch :: rest) cursor start false true prev tokens =
      if ch = '/' ∧ prev = some '*' then
        tokLoop sql rest (cursor + 1) (cursor + 1) false false (some ch) tokens
      else
        tokLoop sql rest (cursor + 1) start false true (some ch) tokens := rfl

theorem tokLoop_cons_main (sql : List Char) (ch : Char) (rest : List Char)
    (cursor start : Nat) (prev : Option Char) (tokens : List Token) :
    tokLoop sql (ch :: rest) cursor start false false prev tokens =
      if isTokenChar ch then
        tokLoop sql rest (cursor + 1) start false false (some ch) tokens
      else
        if ch = '-' then
          if rest.head? = none then .error .atOutOfRange
          else if rest.head? = some '-' then
            tokLoop sql rest (cursor + 1) (cursor + 1) true false (some ch)
              (if start < cursor then
                 tokens ++ [⟨start, cursor, substrC sql start (cursor - start)⟩]
               else tokens)
          else
            tokLoop sql rest (cursor + 1) (cursor + 1) false false (some ch)
              ((if start < cursor then
                  tokens ++ [⟨start, cursor, substrC sql start (cursor - start)⟩]
                else tokens) ++ [⟨cursor, cursor + 1, [ch]⟩])
        else if ch = '/' then
          if rest.head? = none then .error .atOutOfRange
          else if rest.head? = some '*' then
            tokLoop sql rest (cursor + 1) (cursor + 1) false true (some ch)
              (if start < cursor then
                 tokens ++ [⟨start, cursor, substrC sql start (cursor - start)⟩]
               else tokens)
          else
            tokLoop sql rest (cursor + 1) (cursor + 1) false false (some ch)
              ((if start < cursor then
                  tokens ++ [⟨start, cursor, substrC sql start (cursor - start)⟩]
                else tokens) ++ [⟨cursor, cursor + 1, [ch]⟩])
        else if isSpaceC ch then
          tokLoop sql rest (cursor + 1) (cursor + 1) false false (some ch)
            (if start < cursor then
               tokens ++ [⟨start, cursor, substrC sql start (cursor - start)⟩]
             else tokens)
        else
          tokLoop sql rest (cursor + 1) (cursor + 1) false false (some ch)
            ((if start < cursor then
                tokens ++ [⟨start, cursor, substrC sql start (cursor - start)⟩]
              else tokens) ++ [⟨cursor, cursor + 1, [ch]⟩]) := rfl

/-! ### Generic list helpers -/

theorem forall_append_one {α : Type} (p : α → Prop) (l : List α) (x : α)
    (hl : ∀ t ∈ l, p t) (hx : p x) : ∀ t ∈ l ++ [x], p t := by
  intro t ht
  rcases List.mem_append.mp ht with h | h
  · exact hl t h
  · rw [List.mem_singleton] at h
    subst h
    exact hx

theorem pairwise_append_one (l : List Token) (x : Token)
    (hp : List.Pairwise tokOrder l) (hord : ∀ t ∈ l, tokOrder t x) :
    List.Pairwise tokOrder (l ++ [x]) := by
  refine List.pairwise_append.mpr ⟨hp, List.pairwise_singleton _ _, ?_⟩
  intro a ha b hb
  rw [List.mem_singleton] at hb
  subst hb
  exact hord a ha

/-! ### The tokenizer emits well-placed, ordered tokens -/

theorem tokLoop_good (sql : List Char) (rest : List Char) :
    ∀ (cursor start : Nat) (c1 c2 : Bool) (prev : Option Char)
      (acc ts : List Token),
      sql.drop cursor = rest →
      cursor ≤ sql.length →
      start ≤ cursor →
      (∀ t ∈ acc, goodToken sql t) →
      (∀ t ∈ acc, t.endPos ≤ start) →
      List.Pairwise tokOrder acc →
      tokLoop sql rest cursor start c1 c2 prev acc = .ok ts →
      (∀ t ∈ ts, goodToken sql t) ∧ List.Pairwise tokOrder ts := by
  induction rest with
  | nil =>
    intro cursor start c1 c2 prev acc ts hdrop hcur hstart hg he hp h
    rw [tokLoop_nil] at h
    by_cases hsc : start < cursor
    · rw [if_pos hsc] at h
      injection h with h
      subst h
      refine ⟨forall_append_one _ _ _ hg ⟨hsc, hcur, rfl⟩, ?_⟩
      exact pairwise_append_one _ _ hp (fun t ht => he t ht)
    · rw [if_neg hsc] at h
      injection h with h
      subst h
      exact ⟨hg, hp⟩
  | cons ch rest ih =>
    intro cursor start c1 c2 prev acc ts hdrop hcur hstart hg he hp h
    have hclen : cursor < sql.length := by
      rcases Nat.lt_or_ge cursor sql.length with hlt | hge
      · exact hlt
      · rw [List.drop_eq_nil_of_le hge] at hdrop
        cases hdrop
    have hdrop1 : sql.drop (cursor + 1) = rest := by
      have h2 := congrArg List.tail hdrop
      rw [← List.drop_one, List.drop_drop, List.tail_cons] at h2
      exact h2
    have hcur1 : cursor + 1 ≤ sql.length := hclen
    cases c1 with
    | true =>
      rw [tokLoop_cons_line] at h
      by_cases hnl : ch = '\n'
      · rw [if_pos hnl] at h
        exact ih (cursor + 1) (cursor + 1) false c2 (some ch) acc ts hdrop1 hcur1
          (le_refl _) hg (fun t ht => le_trans (he t ht) (le_trans hstart (Nat.le_succ _))) hp h
      · rw [if_neg hnl] at h
        exact ih (cursor + 1) start true c2 (some ch) acc ts hdrop1 hcur1
          (le_trans hstart (Nat.le_succ _)) hg he hp h
    | false =>
      cases c2 with
      | true =>
        rw [tokLoop_cons_block] at h
        by_cases hbc : ch = '/' ∧ prev = some '*'
        · rw [if_pos hbc] at h
          exact ih (cursor + 1) (cursor + 1) false false (some ch) acc ts hdrop1 hcur1
            (le_refl _) hg (fun t ht => le_trans (he t ht) (le_trans hstart (Nat.le_succ _))) hp h
        · rw [if_neg hbc] at h
          exact ih (cursor + 1) start false true (some ch) acc ts hdrop1 hcur1
            (le_trans hstart (Nat.le_succ _)) hg he hp h
      | false =>
        rw [tokLoop_cons_main] at h
        by_cases htc : isTokenChar ch
        · rw [if_pos htc] at h
          exact ih (cursor + 1) start false false (some ch) acc ts hdrop1 hcur1
            (le_trans hstart (Nat.le_succ _)) hg he hp h
        · rw [if_neg htc] at h
          -- facts about the pending-token flush
          have hg1 : ∀ t ∈ (if start < cursor then
              acc ++ [⟨start, cursor, substrC sql start (cursor - start)⟩] else acc),
              goodToken sql t := by
            by_cases hsc : start < cursor
            · rw [if_pos hsc]
              exact forall_append_one _ _ _ hg ⟨hsc, le_of_lt hclen, rfl⟩
            · rw [if_neg hsc]
              exact hg
          have he1 : ∀ t ∈ (if start < cursor then
              acc ++ [⟨start, cursor, substrC sql start (cursor - start)⟩] else acc),
              t.endPos ≤ cursor := by
            by_cases hsc : start < cursor
            · rw [if_pos hsc]
              exact forall_append_one _ _ _ (fun t ht => le_trans (he t ht) hstart) (le_refl _)
            · rw [if_neg hsc]
              exact fun t ht => le_trans (he t ht) hstart
          have hp1 : List.Pairwise tokOrder (if start < cursor then
              acc ++ [⟨start, cursor, substrC sql start (cursor - start)⟩] else acc) := by
            by_cases hsc : start < cursor
            · rw [if_pos hsc]
              exact pairwise_append_one _ _ hp (fun t ht => he t ht)
            · rw [if_neg hsc]
              exact hp
          -- facts after additionally emitting the one-character token
          have hsingle : goodToken sql ⟨cursor, cursor + 1, [ch]⟩ := by
            refine ⟨Nat.lt_succ_self _, hclen, ?_⟩
            show [ch] = substrC sql cursor (cursor + 1 - cursor)
            rw [Nat.add_sub_cancel_left, substrC, hdrop]
            rfl
          have hg2 : ∀ t ∈ ((if start < cursor then
              acc ++ [⟨start, cursor, substrC sql start (cursor - start)⟩] else acc) ++
              [⟨cursor, cursor + 1, [ch]⟩]), goodToken sql t :=
            forall_append_one _ _ _ hg1 hsingle
          have he2 : ∀ t ∈ ((if start < cursor then
              acc ++ [⟨start, cursor, substrC sql start (cursor - start)⟩] else acc) ++
              [⟨cursor, cursor + 1, [ch]⟩]), t.endPos ≤ cursor + 1 :=
            forall_append_one _ _ _ (fun t ht => le_trans (he1 t ht) (Nat.le_succ _)) (le_refl _)
          have hp2 : List.Pairwise tokOrder ((if start < cursor then
              acc ++ [⟨start, cursor, substrC sql start (cursor - start)⟩] else acc) ++
              [⟨cursor, cursor + 1, [ch]⟩]) :=
            pairwise_append_one _ _ hp1 (fun t ht => he1 t ht)
          by_cases hd : ch = '-'
          · rw [if_pos hd] at h
            by_cases hhd : rest.head? = none
            · rw [if_pos hhd] at h
              exact Except.noConfusion h
            · rw [if_neg hhd] at h
              by_cases hdd : rest.head? = some '-'
              · rw [if_pos hdd] at h
                exact ih (cursor + 1) (cursor + 1) true false (some ch) _ ts hdrop1 hcur1
                  (le_refl _) hg1 (fun t ht => le_trans (he1 t ht) (Nat.le_succ _)) hp1 h
              · rw [if_neg hdd] at h
                exact ih (cursor + 1) (cursor + 1) false false (some ch) _ ts hdrop1 hcur1
                  (le_refl _) hg2 he2 hp2 h
          · rw [if_neg hd] at h
            by_cases hs : ch = '/'
            · rw [if_pos hs] at h
              by_cases hhd : rest.head? = none
              · rw [if_pos hhd] at h
                exact Except.noConfusion h
              · rw [if_neg hhd] at h
                by_cases hss : rest.head? = some '*'
                · rw [if_pos hss] at h
                  exact ih (cursor + 1) (cursor + 1) false true (some ch) _ ts hdrop1 hcur1
                    (le_refl _) hg1 (fun t ht => le_trans (he1 t ht) (Nat.le_succ _)) hp1 h
                · rw [if_neg hss] at h
                  exact ih (cursor + 1) (cursor + 1) false false (some ch) _ ts hdrop1 hcur1
                    (le_refl _) hg2 he2 hp2 h
            · rw [if_neg hs] at h
              by_cases hsp : isSpaceC ch
              · rw [if_pos hsp] at h
                exact ih (cursor + 1) (cursor + 1) false false (some ch) _ ts hdrop1 hcur1
                  (le_refl _) hg1 (fun t ht => le_trans (he1 t ht) (Nat.le_succ _)) hp1 h
              · rw [if_neg hsp] at h
                exact ih (cursor + 1) (cursor + 1) false false (some ch) _ ts hdrop1 hcur1
                  (le_refl _) hg2 he2 hp2 h

/-- Tokens of a successful tokenize run are well-placed and ordered. -/
theorem tokenize_good (s : List Char) (ts : List Token) (h : tokenize s = .ok ts) :
    (∀ t ∈ ts, goodToken s t) ∧ List.Pairwise tokOrder ts := by
  refine tokLoop_good s s 0 0 false false none [] ts rfl (Nat.zero_le _) (le_refl 0)
    ?_ ?_ List.Pairwise.nil h
  · intro t ht
    cases ht
  · intro t ht
    cases ht

/-! ### Structure of compiled patterns -/

theorem parseSearchPattern_shape (q : List Char) (P : List Block)
    (h : parseSearchPattern q = .ok P) :
    ∃ b0 bs, P = b0 :: bs ∧ b0.isVariable = false ∧
      ((b0 :: bs).getLastD b0).isVariable = false := by
  unfold parseSearchPattern at h
  split at h
  · exact Except.noConfusion h
  · split at h
    · exact Except.noConfusion h
    · rename_i tokens htok b0 bs hmap
      by_cases hv : b0.isVariable || ((b0 :: bs).getLastD b0).isVariable
      · rw [if_pos hv] at h
        exact Except.noConfusion h
      · rw [if_neg hv] at h
        injection h with h
        subst h
        simp only [Bool.or_eq_true, not_or, Bool.not_eq_true] at hv
        exact ⟨b0, bs, rfl, hv.1, hv.2⟩

theorem getLast_not_var_of_shape (b0 : Block) (bs : List Block)
    (hl : ((b0 :: bs).getLastD b0).isVariable = false) :
    ∀ b : Block, (b0 :: bs).getLast? = some b → b.isVariable = false := by
  intro b hb
  have h1 : (b0 :: bs).getLastD b0 = ((b0 :: bs).getLast?).getD b0 :=
    List.getLastD_eq_getLast? _ _
  rw [hb] at h1
  simp only [Option.getD_some] at h1
  rw [← h1]
  exact hl

/-! ### searchLoop equations -/

theorem searchLoop_nil (sql : List Char) (P : List Block) (mc vs : Nat)
    (ns : List (List Char)) (ms : Option Nat) (acc : List (List Char × List Char)) :
    searchLoop sql P [] mc vs ns ms acc = .ok none := rfl

theorem searchLoop_cons (sql : List Char) (P : List Block) (token : Token)
    (rest : List Token) (mc vs : Nat) (ns : List (List Char)) (ms : Option Nat)
    (acc : List (List Char × List Char)) :
    searchLoop sql P (token :: rest) mc vs ns ms acc =
      match P[mc]? with
      | none => .error .indexOOB
      | some blk =>
        if blk.isVariable then
          match P[mc + 1]? with
          | none => .error .indexOOB
          | some nextBlk =>
            if ns = [] ∧ token.text = nextBlk.text then
              if mc + 2 = P.length then
                .ok (some ⟨ms.getD 0, token.endPos,
                  mapInsert acc blk.text (substrC sql vs (token.start - vs))⟩)
              else
                match P[mc + 2]? with
                | none => .error .indexOOB
                | some b2 =>
                  searchLoop sql P rest (mc + 2)
                    (if b2.isVariable then token.endPos else vs) ns ms
                    (mapInsert acc blk.text (substrC sql vs (token.start - vs)))
            else
              searchLoop sql P rest mc vs (nestUpdate ns token.text) ms acc
        else
          if token.text = blk.text then
            if mc + 1 = P.length then
              .ok (some ⟨(if mc = 0 then some token.start else ms).getD 0,
                token.endPos, acc⟩)
            else
              match P[mc + 1]? with
              | none => .error .indexOOB
              | some b2 =>
                searchLoop sql P rest (mc + 1)
                  (if b2.isVariable then token.endPos else vs) ns
                  (if mc = 0 then some token.start else ms) acc
          else
            searchLoop sql P rest 0 vs ns ms acc := rfl

/-! ### tokenize can only fail with the out-of-range error -/

theorem tokLoop_error_eq (sql : List Char) (rest : List Char) :
    ∀ (cursor start : Nat) (c1 c2 : Bool) (prev : Option Char)
      (acc : List Token) (e : CppError),
      tokLoop sql rest cursor start c1 c2 prev acc = .error e → e = .atOutOfRange := by
  induction rest with
  | nil =>
    intro cursor start c1 c2 prev acc e h
    rw [tokLoop_nil] at h
    exact Except.noConfusion h
  | cons ch rest ih =>
    intro cursor start c1 c2 prev acc e h
    cases c1 with
    | true =>
      rw [tokLoop_cons_line] at h
      by_cases hnl : ch = '\n'
      · rw [if_pos hnl] at h
        exact ih _ _ _ _ _ _ _ h
      · rw [if_neg hnl] at h
        exact ih _ _ _ _ _ _ _ h
    | false =>
      cases c2 with
      | true =>
        rw [tokLoop_cons_block] at h
        by_cases hbc : ch = '/' ∧ prev = some '*'
        · rw [if_pos hbc] at h
          exact ih _ _ _ _ _ _ _ h
        · rw [if_neg hbc] at h
          exact ih _ _ _ _ _ _ _ h
      | false =>
        rw [tokLoop_cons_main] at h
        by_cases htc : isTokenChar ch
        · rw [if_pos htc] at h
          exact ih _ _ _ _ _ _ _ h
        · rw [if_neg htc] at h
          by_cases hd : ch = '-'
          · rw [if_pos hd] at h
            by_cases hhd : rest.head? = none
            · rw [if_pos hhd] at h
              injection h with h
              exact h.symm
            · rw [if_neg hhd] at h
              by_cases hdd : rest.head? = some '-'
              · rw [if_pos hdd] at h
                exact ih _ _ _ _ _ _ _ h
              · rw [if_neg hdd] at h
                exact ih _ _ _ _ _ _ _ h
          · rw [if_neg hd] at h
            by_cases hs : ch = '/'
            · rw [if_pos hs] at h
              by_cases hhd : rest.head? = none
              · rw [if_pos hhd] at h
                injection h with h
                exact h.symm
              · rw [if_neg hhd] at h
                by_cases hss : rest.head? = some '*'
                · rw [if_pos hss] at h
                  exact ih _ _ _ _ _ _ _ h
                · rw [if_neg hss] at h
                  exact ih _ _ _ _ _ _ _ h
            · rw [if_neg hs] at h
              by_cases hsp : isSpaceC ch
              · rw [if_pos hsp] at h
                exact ih _ _ _ _ _ _ _ h
              · rw [if_neg hsp] at h
                exact ih _ _ _ _ _ _ _ h

theorem tokenize_error_eq (s : List Char) (e : CppError)
    (h : tokenize s = .error e) : e = .atOutOfRange :=
  tokLoop_error_eq s s 0 0 false false none [] e h

/-! ### search never reads the pattern out of bounds (support for C10) -/

theorem searchLoop_no_oob (sql : List Char) (P : List Block)
    (hne : P ≠ [])
    (hlast : ∀ b : Block, P.getLast? = some b → b.isVariable = false)
    (ts : List Token) :
    ∀ (mc vs : Nat) (ns : List (List Char)) (ms : Option Nat)
      (acc : List (List Char × List Char)),
      mc < P.length →
      searchLoop sql P ts mc vs ns ms acc ≠ .error .indexOOB := by
  induction ts with
  | nil =>
    intro mc vs ns ms acc hmc hcontra
    rw [searchLoop_nil] at hcontra
    exact Except.noConfusion hcontra
  | cons token rest ih =>
    intro mc vs ns ms acc hmc hcontra
    rw [searchLoop_cons] at hcontra
    split at hcontra
    · rename_i heq
      rw [List.getElem?_eq_getElem hmc] at heq
      exact Option.noConfusion heq
    · rename_i blk hblk
      by_cases hvar : blk.isVariable
      · rw [if_pos hvar] at hcontra
        have hmc1 : mc + 1 < P.length := by
          rcases Nat.lt_or_ge (mc + 1) P.length with hlt | hge
          · exact hlt
          · exfalso
            have hmceq : mc = P.length - 1 := by omega
            have hlastP : P.getLast? = some blk := by
              rw [List.getLast?_eq_getElem?]
              rw [← hmceq]
              exact hblk
            rw [hlast blk hlastP] at hvar
            exact Bool.noConfusion hvar
        split at hcontra
        · rename_i heq
          rw [List.getElem?_eq_getElem hmc1] at heq
          exact Option.noConfusion heq
        · rename_i nextBlk hnext
          by_cases hterm : ns = [] ∧ token.text = nextBlk.text
          · rw [if_pos hterm] at hcontra
            by_cases hend : mc + 2 = P.length
            · rw [if_pos hend] at hcontra
              exact Except.noConfusion hcontra
            · rw [if_neg hend] at hcontra
              have hmc2 : mc + 2 < P.length := by omega
              split at hcontra
              · rename_i heq
                rw [List.getElem?_eq_getElem hmc2] at heq
                exact Option.noConfusion heq
              · exact ih (mc + 2) _ _ _ _ hmc2 hcontra
          · rw [if_neg hterm] at hcontra
            exact ih mc _ _ _ _ hmc hcontra
      · rw [if_neg hvar] at hcontra
        by_cases hlit : token.text = blk.text
        · rw [if_pos hlit] at hcontra
          by_cases hend : mc + 1 = P.length
          · rw [if_pos hend] at hcontra
            exact Except.noConfusion hcontra
          · rw [if_neg hend] at hcontra
            have hmc1 : mc + 1 < P.length := by omega
            split at hcontra
            · rename_i heq
              rw [List.getElem?_eq_getElem hmc1] at heq
              exact Option.noConfusion heq
            · exact ih (mc + 1) _ _ _ _ hmc1 hcontra
        · rw [if_neg hlit] at hcontra
          have h0 : 0 < P.length := List.length_pos.mpr hne
          exact ih 0 _ _ _ _ h0 hcontra

/-! ### Lower-casing facts -/

theorem charOfNat_toNat_32 (n : Nat) (h1 : 65 ≤ n) (h2 : n ≤ 90) :
    (Char.ofNat (n + 32)).toNat = n + 32 := by
  interval_cases n <;> decide

theorem lowerChar_eq_of_not (c : Char) (h : ¬(65 ≤ c.toNat ∧ c.toNat ≤ 90)) :
    lowerChar c = c := by
  unfold lowerChar
  exact if_neg h

theorem lowerChar_idem (c : Char) : lowerChar (lowerChar c) = lowerChar c := by
  by_cases h : 65 ≤ c.toNat ∧ c.toNat ≤ 90
  · have h1 : lowerChar c = Char.ofNat (c.toNat + 32) := by
      unfold lowerChar
      exact if_pos h
    have h2 : (lowerChar c).toNat = c.toNat + 32 := by
      rw [h1]
      exact charOfNat_toNat_32 c.toNat h.1 h.2
    apply lowerChar_eq_of_not
    rw [h2]
    omega
  · simp only [lowerChar_eq_of_not c h]

theorem toLowerCase_idem (s : List Char) : toLowerCase (toLowerCase s) = toLowerCase s := by
  unfold toLowerCase
  rw [List.map_map]
  induction s with
  | nil => rfl
  | cons c cs ih =>
    simp only [List.map_cons, Function.comp_apply, lowerChar_idem]
    rw [ih]

theorem toLowerCase_length (s : List Char) : (toLowerCase s).length = s.length :=
  List.length_map s lowerChar

theorem substrC_lower (s : List Char) (a n : Nat) :
    substrC (toLowerCase s) a n = toLowerCase (substrC s a n) := by
  unfold substrC toLowerCase
  rw [List.map_take, List.map_drop]

/-! ### mapInsert preserves pointwise facts -/

theorem mapInsert_forall (p : List Char × List Char → Prop) (k v : List Char)
    (hkv : p (k, v)) :
    ∀ acc : List (List Char × List Char), (∀ kv ∈ acc, p kv) →
      ∀ kv ∈ mapInsert acc k v, p kv := by
  intro acc
  induction acc with
  | nil =>
    intro hacc kv hkv2
    rw [mapInsert] at hkv2
    rw [List.mem_singleton] at hkv2
    subst hkv2
    exact hkv
  | cons kv0 rest ih =>
    obtain ⟨k0, v0⟩ := kv0
    intro hacc kv hkv2
    rw [mapInsert] at hkv2
    by_cases he : k = k0
    · rw [if_pos he] at hkv2
      rcases List.mem_cons.mp hkv2 with h | h
      · subst h
        exact hkv
      · exact hacc _ (List.mem_cons_of_mem _ h)
    · rw [if_neg he] at hkv2
      by_cases hl : lexLt k k0
      · rw [if_pos hl] at hkv2
        rcases List.mem_cons.mp hkv2 with h | h
        · subst h
          exact hkv
        · exact hacc _ h
      · rw [if_neg hl] at hkv2
        rcases List.mem_cons.mp hkv2 with h | h
        · subst h
          exact hacc _ (List.mem_cons_self _ _)
        · exact ih (fun kv2 h2 => hacc _ (List.mem_cons_of_mem _ h2)) _ h

/-! ### What a successful search yields (support for C1) -/

theorem searchLoop_props (sql : List Char) (P : List Block) (ts0 : List Token)
    (hgood : ∀ t ∈ ts0, t.start < t.endPos ∧ t.endPos ≤ sql.length)
    (hP0 : ∀ b : Block, P[0]? = some b → b.isVariable = false)
    (ts : List Token) :
    ∀ (mc vs : Nat) (ns : List (List Char)) (ms : Option Nat)
      (acc : List (List Char × List Char)) (m : MatchedPattern),
      ts <:+ ts0 →
      List.Pairwise tokOrder ts →
      vs ≤ sql.length →
      (∀ t ∈ ts, vs ≤ t.start) →
      (vs = 0 ∨ ∃ t ∈ ts0, vs = t.endPos) →
      (∀ x : Nat, ms = some x → x < sql.length ∧ ∀ t ∈ ts, x ≤ t.start) →
      (mc ≠ 0 → ms.isSome) →
      (∀ kv ∈ acc, BindProp sql ts0 kv) →
      searchLoop sql P ts mc vs ns ms acc = .ok (some m) →
      (∀ kv ∈ m.variableToValue, BindProp sql ts0 kv) ∧
        m.start < m.endPos ∧ m.endPos ≤ sql.length := by
  induction ts with
  | nil =>
    intro mc vs ns ms acc m hsuf hpw hvs1 hvs2 hvs3 hms hmss hacc h
    rw [searchLoop_nil] at h
    injection h with h
    exact Option.noConfusion h
  | cons token rest ih =>
    intro mc vs ns ms acc m hsuf hpw hvs1 hvs2 hvs3 hms hmss hacc h
    have htok : token ∈ ts0 := hsuf.sublist.subset (List.mem_cons_self _ _)
    have hgt := hgood token htok
    have hsufr : rest <:+ ts0 := (List.suffix_cons token rest).trans hsuf
    have hpwc := List.pairwise_cons.mp hpw
    have hrel : ∀ t ∈ rest, token.endPos ≤ t.start := hpwc.1
    have hpwr : List.Pairwise tokOrder rest := hpwc.2
    have hstartle : token.start ≤ sql.length := le_of_lt (Nat.lt_of_lt_of_le hgt.1 hgt.2)
    rw [searchLoop_cons] at h
    split at h
    · exact Except.noConfusion h
    · rename_i blk hblk
      by_cases hvar : blk.isVariable
      · rw [if_pos hvar] at h
        split at h
        · exact Except.noConfusion h
        · rename_i nextBlk hnext
          by_cases hterm : ns = [] ∧ token.text = nextBlk.text
          · rw [if_pos hterm] at h
            have hbind : BindProp sql ts0
                (blk.text, substrC sql vs (token.start - vs)) :=
              ⟨vs, token.start, hvs2 token (List.mem_cons_self _ _), hstartle,
                hvs3, ⟨token, htok, rfl⟩, rfl⟩
            have haccall : ∀ kv ∈ mapInsert acc blk.text
                (substrC sql vs (token.start - vs)), BindProp sql ts0 kv :=
              mapInsert_forall _ _ _ hbind acc hacc
            have hmc0 : mc ≠ 0 := by
              intro h0
              subst h0
              rw [hP0 blk hblk] at hvar
              exact Bool.noConfusion hvar
            obtain ⟨x, hx⟩ := Option.isSome_iff_exists.mp (hmss hmc0)
            have hxf := hms x hx
            by_cases hend : mc + 2 = P.length
            · rw [if_pos hend] at h
              injection h with h
              injection h with h
              subst h
              refine ⟨haccall, ?_, hgt.2⟩
              show ms.getD 0 < token.endPos
              rw [hx]
              show x < token.endPos
              exact Nat.lt_of_le_of_lt (hxf.2 token (List.mem_cons_self _ _)) hgt.1
            · rw [if_neg hend] at h
              split at h
              · exact Except.noConfusion h
              · rename_i b2 hb2
                refine ih (mc + 2) _ ns ms _ m hsufr hpwr ?_ ?_ ?_ ?_ ?_ haccall h
                · by_cases hbv : b2.isVariable
                  · rw [if_pos hbv]
                    exact hgt.2
                  · rw [if_neg hbv]
                    exact hvs1
                · intro t ht
                  by_cases hbv : b2.isVariable
                  · rw [if_pos hbv]
                    exact hrel t ht
                  · rw [if_neg hbv]
                    exact hvs2 t (List.mem_cons_of_mem _ ht)
                · by_cases hbv : b2.isVariable
                  · rw [if_pos hbv]
                    exact Or.inr ⟨token, htok, rfl⟩
                  · rw [if_neg hbv]
                    exact hvs3
                · intro y hy
                  exact ⟨(hms y hy).1, fun t ht => (hms y hy).2 t (List.mem_cons_of_mem _ ht)⟩
                · intro _
                  exact hmss hmc0
          · rw [if_neg hterm] at h
            refine ih mc vs _ ms acc m hsufr hpwr hvs1
              (fun t ht => hvs2 t (List.mem_cons_of_mem _ ht)) hvs3 ?_ hmss hacc h
            intro y hy
            exact ⟨(hms y hy).1, fun t ht => (hms y hy).2 t (List.mem_cons_of_mem _ ht)⟩
      · rw [if_neg hvar] at h
        by_cases hlit : token.text = blk.text
        · rw [if_pos hlit] at h
          by_cases hend : mc + 1 = P.length
          · rw [if_pos hend] at h
            injection h with h
            injection h with h
            subst h
            refine ⟨hacc, ?_, hgt.2⟩
            show (if mc = 0 then some token.start else ms).getD 0 < token.endPos
            by_cases hmc0 : mc = 0
            · rw [if_pos hmc0]
              exact hgt.1
            · rw [if_neg hmc0]
              obtain ⟨x, hx⟩ := Option.isSome_iff_exists.mp (hmss hmc0)
              rw [hx]
              show x < token.endPos
              exact Nat.lt_of_le_of_lt ((hms x hx).2 token (List.mem_cons_self _ _)) hgt.1
          · rw [if_neg hend] at h
            split at h
            · exact Except.noConfusion h
            · rename_i b2 hb2
              refine ih (mc + 1) _ ns _ acc m hsufr hpwr ?_ ?_ ?_ ?_ ?_ hacc h
              · by_cases hbv : b2.isVariable
                · rw [if_pos hbv]
                  exact hgt.2
                · rw [if_neg hbv]
                  exact hvs1
              · intro t ht
                by_cases hbv : b2.isVariable
                · rw [if_pos hbv]
                  exact hrel t ht
                · rw [if_neg hbv]
                  exact hvs2 t (List.mem_cons_of_mem _ ht)
              · by_cases hbv : b2.isVariable
                · rw [if_pos hbv]
                  exact Or.inr ⟨token, htok, rfl⟩
                · rw [if_neg hbv]
                  exact hvs3
              · intro y hy
                by_cases hmc0 : mc = 0
                · rw [if_pos hmc0] at hy
                  injection hy with hy
                  subst hy
                  exact ⟨Nat.lt_of_lt_of_le hgt.1 hgt.2,
                    fun t ht => le_trans (le_of_lt hgt.1) (hrel t ht)⟩
                · rw [if_neg hmc0] at hy
                  exact ⟨(hms y hy).1, fun t ht => (hms y hy).2 t (List.mem_cons_of_mem _ ht)⟩
              · intro _
                by_cases hmc0 : mc = 0
                · rw [if_pos hmc0]
                  exact rfl
                · rw [if_neg hmc0]
                  exact hmss hmc0
        · rw [if_neg hlit] at h
          refine ih 0 vs ns ms acc m hsufr hpwr hvs1
            (fun t ht => hvs2 t (List.mem_cons_of_mem _ ht)) hvs3 ?_ ?_ hacc h
          · intro y hy
            exact ⟨(hms y hy).1, fun t ht => (hms y hy).2 t (List.mem_cons_of_mem _ ht)⟩
          · intro h0
            exact absurd rfl h0

/-! ### search on the lower-cased subject (case-insensitivity, support for C1) -/

theorem mapInsert_lower (k v : List Char) :
    ∀ acc : List (List Char × List Char),
      mapInsert (lowerBinds acc) k (toLowerCase v) = lowerBinds (mapInsert acc k v) := by
  intro acc
  induction acc with
  | nil => rfl
  | cons kv0 rest ih =>
    obtain ⟨k0, v0⟩ := kv0
    show mapInsert ((k0, toLowerCase v0) :: lowerBinds rest) k (toLowerCase v) = _
    rw [mapInsert, mapInsert]
    by_cases he : k = k0
    · rw [if_pos he, if_pos he]
      rfl
    · rw [if_neg he, if_neg he]
      by_cases hl : lexLt k k0
      · rw [if_pos hl, if_pos hl]
        rfl
      · rw [if_neg hl, if_neg hl]
        show (k0, toLowerCase v0) :: mapInsert (lowerBinds rest) k (toLowerCase v) = _
        rw [ih]
        rfl

theorem searchLoop_lower (sql : List Char) (P : List Block) (ts : List Token) :
    ∀ (mc vs : Nat) (ns : List (List Char)) (ms : Option Nat)
      (acc : List (List Char × List Char)),
      searchLoop (toLowerCase sql) P ts mc vs ns ms (lowerBinds acc) =
        lowerRes (searchLoop sql P ts mc vs ns ms acc) := by
  induction ts with
  | nil =>
    intro mc vs ns ms acc
    rw [searchLoop_nil, searchLoop_nil]
    rfl
  | cons token rest ih =>
    intro mc vs ns ms acc
    rw [searchLoop_cons, searchLoop_cons]
    split
    · rfl
    · rename_i blk hblk
      by_cases hvar : blk.isVariable
      · rw [if_pos hvar, if_pos hvar]
        split
        · rfl
        · rename_i nextBlk hnext
          by_cases hterm : ns = [] ∧ token.text = nextBlk.text
          · rw [if_pos hterm, if_pos hterm]
            by_cases hend : mc + 2 = P.length
            · rw [if_pos hend, if_pos hend]
              rw [substrC_lower, mapInsert_lower]
              rfl
            · rw [if_neg hend, if_neg hend]
              split
              · rfl
              · rw [substrC_lower, mapInsert_lower]
                exact ih _ _ _ _ _
          · rw [if_neg hterm, if_neg hterm]
            exact ih _ _ _ _ _
      · rw [if_neg hvar, if_neg hvar]
        by_cases hlit : token.text = blk.text
        · rw [if_pos hlit, if_pos hlit]
          by_cases hend : mc + 1 = P.length
          · rw [if_pos hend, if_pos hend]
            rfl
          · rw [if_neg hend, if_neg hend]
            split
            · rfl
            · exact ih _ _ _ _ _
        · rw [if_neg hlit, if_neg hlit]
          exact ih _ _ _ _ _

/-- C1: for every subject and compiled pattern, matching is driven by the
tokens of the lower-cased subject and is insensitive to the subject's case
(searching the lower-cased subject succeeds at the same offsets, with the same
keys, the values being the lower-cased captures), while every value bound by a
successful match is the original-case slice of the subject between a capture
start offset (the end of some subject token, or 0) and the start offset of its
terminating subject token, and the returned start/end offsets index into the
original subject. -/
theorem search_case_insensitive_captures_original (q sql : List Char)
    (P : List Block) (m : MatchedPattern)
    (hP : parseSearchPattern q = .ok P)
    (hm : search sql P = .ok (some m)) :
    search (toLowerCase sql) P =
      .ok (some ⟨m.start, m.endPos, lowerBinds m.variableToValue⟩) ∧
    (∀ kv ∈ m.variableToValue, ∃ a b, a ≤ b ∧ b ≤ sql.length ∧
      (a = 0 ∨ ∃ ts1 t, tokenize (toLowerCase sql) = .ok ts1 ∧ t ∈ ts1 ∧ a = t.endPos) ∧
      (∃ ts1 t, tokenize (toLowerCase sql) = .ok ts1 ∧ t ∈ ts1 ∧ b = t.start) ∧
      kv.2 = substrC sql a (b - a)) ∧
    m.start < m.endPos ∧ m.endPos ≤ sql.length := by
  unfold search at hm
  cases htok : tokenize (toLowerCase sql) with
  | error e =>
    rw [htok] at hm
    exact Except.noConfusion hm
  | ok ts =>
    rw [htok] at hm
    have hm' : searchLoop sql P ts 0 0 [] none [] = .ok (some m) := hm
    have hg := tokenize_good (toLowerCase sql) ts htok
    have hgood : ∀ t ∈ ts, t.start < t.endPos ∧ t.endPos ≤ sql.length := by
      intro t ht
      have h2 := hg.1 t ht
      refine ⟨h2.1, ?_⟩
      rw [← toLowerCase_length]
      exact h2.2.1
    have hP0 : ∀ b : Block, P[0]? = some b → b.isVariable = false := by
      obtain ⟨b0, bs, hPeq, hb0, hlast⟩ := parseSearchPattern_shape q P hP
      intro b hb
      subst hPeq
      rw [List.getElem?_cons_zero] at hb
      injection hb with hb
      subst hb
      exact hb0
    have hprops := searchLoop_props sql P ts hgood hP0 ts 0 0 [] none [] m
      (List.suffix_refl ts) hg.2 (Nat.zero_le _) (fun t _ => Nat.zero_le _)
      (Or.inl rfl) (fun x hx => Option.noConfusion hx) (fun h0 => absurd rfl h0)
      (fun kv hkv => absurd hkv (List.not_mem_nil kv)) hm'
    refine ⟨?_, ?_, hprops.2.1, hprops.2.2⟩
    · unfold search
      rw [toLowerCase_idem, htok]
      show searchLoop (toLowerCase sql) P ts 0 0 [] none [] = _
      have h2 := searchLoop_lower sql P ts 0 0 [] none []
      rw [show lowerBinds [] = [] from rfl] at h2
      rw [h2, hm']
      rfl
    · intro kv hkv
      obtain ⟨a, b, hab, hble, ha, ⟨t, htmem, hbt⟩, heq⟩ := hprops.1 kv hkv
      refine ⟨a, b, hab, hble, ?_, ⟨ts, t, rfl, htmem, hbt⟩, heq⟩
      rcases ha with h0 | ⟨t2, ht2, he2⟩
      · exact Or.inl h0
      · exact Or.inr ⟨ts, t2, rfl, ht2, he2⟩

/-! ### The replace loops stop exactly when no match is left (support for C8) -/

theorem searchAndReplace_zero (sql : List Char) (P : List Block) (tmpl : List Char) :
    searchAndReplace 0 sql P tmpl = .ok none := rfl

theorem searchAndReplace_succ (fuel : Nat) (sql : List Char) (P : List Block)
    (tmpl : List Char) :
    searchAndReplace (fuel + 1) sql P tmpl =
      match search sql P with
      | .error e => .error e
      | .ok none => .ok (some sql)
      | .ok (some m) =>
        searchAndReplace fuel
          (sql.take m.start ++ buildReplacement tmpl m.variableToValue ++
            sql.drop m.endPos) P tmpl := rfl

theorem translateSql_nil (fuel : Nat) (str : List Char) :
    translateSql fuel str [] = .ok (some str) := rfl

theorem translateSql_cons (fuel : Nat) (str p r : List Char)
    (rest : List (List Char × List Char)) :
    translateSql fuel str ((p, r) :: rest) =
      match parseSearchPattern p with
      | .error e => .error e
      | .ok P =>
        match searchAndReplace fuel str P r with
        | .error e => .error e
        | .ok none => .ok none
        | .ok (some s1) => translateSql fuel s1 rest := rfl

theorem searchAndReplace_result_no_match (P : List Block) (tmpl : List Char) :
    ∀ (fuel : Nat) (sql r : List Char),
      searchAndReplace fuel sql P tmpl = .ok (some r) → search r P = .ok none := by
  intro fuel
  induction fuel with
  | zero =>
    intro sql r h
    rw [searchAndReplace_zero] at h
    injection h with h
    exact Option.noConfusion h
  | succ n ih =>
    intro sql r h
    rw [searchAndReplace_succ] at h
    split at h
    · exact Except.noConfusion h
    · rename_i hs
      injection h with h
      injection h with h
      subst h
      exact hs
    · rename_i m hs
      exact ih _ _ h

theorem searchAndReplace_fix (P : List Block) (tmpl r : List Char)
    (h : search r P = .ok none) (f : Nat) :
    searchAndReplace (f + 1) r P tmpl = .ok (some r) := by
  rw [searchAndReplace_succ, h]

theorem translateSql_rules_compile (fuel : Nat) :
    ∀ (rules : List (List Char × List Char)) (s out : List Char),
      translateSql fuel s rules = .ok (some out) →
      ∀ pr ∈ rules, ∃ Q, parseSearchPattern pr.1 = .ok Q := by
  intro rules
  induction rules with
  | nil =>
    intro s out h pr hpr
    cases hpr
  | cons pr0 rest ih =>
    obtain ⟨p, r⟩ := pr0
    intro s out h pr hpr
    rw [translateSql_cons] at h
    split at h
    · exact Except.noConfusion h
    · rename_i Q hQ
      split at h
      · exact Except.noConfusion h
      · injection h with h
        exact Option.noConfusion h
      · rename_i s1 hs1
        rcases List.mem_cons.mp hpr with h2 | h2
        · subst h2
          exact ⟨Q, hQ⟩
        · exact ih s1 out h pr h2

theorem translateSql_fixpoint :
    ∀ (rules : List (List Char × List Char)) (out : List Char) (g : Nat),
      (∀ pr ∈ rules, ∃ Q, parseSearchPattern pr.1 = .ok Q) →
      noFurtherMatch out rules →
      translateSql (g + 1) out rules = .ok (some out) := by
  intro rules
  induction rules with
  | nil =>
    intro out g _ _
    exact translateSql_nil _ _
  | cons pr0 rest ih =>
    obtain ⟨p, r⟩ := pr0
    intro out g hcomp hnf
    obtain ⟨Q, hQ⟩ := hcomp (p, r) (List.mem_cons_self _ _)
    have hsr : searchAndReplace (g + 1) out Q r = .ok (some out) :=
      searchAndReplace_fix Q r out (hnf (p, r) (List.mem_cons_self _ _) Q hQ) g
    rw [translateSql_cons]
    split
    · rename_i e heq
      rw [hQ] at heq
      exact Except.noConfusion heq
    · rename_i Q2 heq
      rw [hQ] at heq
      injection heq with heq
      subst heq
      split
      · rename_i e heq2
        rw [hsr] at heq2
        exact Except.noConfusion heq2
      · rename_i heq2
        rw [hsr] at heq2
        injection heq2 with heq2
        exact Option.noConfusion heq2
      · rename_i s1 heq2
        rw [hsr] at heq2
        injection heq2 with heq2
        injection heq2 with heq2
        subst heq2
        exact ih out g (fun pr2 h2 => hcomp pr2 (List.mem_cons_of_mem _ h2))
          (fun pr2 h2 => hnf pr2 (List.mem_cons_of_mem _ h2))

/-! ### replaceAll: fuel irrelevance and unfolding -/

theorem replaceAllAux_cons (pat t : List Char) (c : Char) (s : List Char) (f : Nat) :
    replaceAllAux pat t (f + 1) (c :: s) =
      if pat ≠ [] ∧ pat.isPrefixOf (c :: s) then
        t ++ replaceAllAux pat t f (List.drop pat.length (c :: s))
      else
        c :: replaceAllAux pat t f s := rfl

theorem replaceAllAux_fuel (pat t : List Char) :
    ∀ (f1 : Nat) (s : List Char) (f2 : Nat), s.length ≤ f1 → s.length ≤ f2 →
      replaceAllAux pat t f1 s = replaceAllAux pat t f2 s := by
  intro f1
  induction f1 with
  | zero =>
    intro s f2 h1 h2
    have hs : s = [] := List.eq_nil_of_length_eq_zero (Nat.le_zero.mp h1)
    subst hs
    cases f2 with
    | zero => rfl
    | succ n => rfl
  | succ n ih =>
    intro s f2 h1 h2
    cases s with
    | nil =>
      cases f2 with
      | zero => rfl
      | succ n2 => rfl
    | cons c s2 =>
      cases f2 with
      | zero =>
        exfalso
        rw [List.length_cons] at h2
        omega
      | succ n2 =>
        rw [replaceAllAux_cons, replaceAllAux_cons]
        rw [List.length_cons] at h1 h2
        by_cases hp : pat ≠ [] ∧ pat.isPrefixOf (c :: s2)
        · rw [if_pos hp, if_pos hp]
          have hplen : 1 ≤ pat.length := List.length_pos.mpr hp.1
          have hdl : (List.drop pat.length (c :: s2)).length ≤ s2.length := by
            rw [List.length_drop, List.length_cons]
            omega
          exact congrArg (t ++ ·) (ih _ n2 (le_trans hdl (by omega)) (le_trans hdl (by omega)))
        · rw [if_neg hp, if_neg hp]
          exact congrArg (c :: ·) (ih s2 n2 (by omega) (by omega))

theorem replaceAll_nil (pat t : List Char) : replaceAll [] pat t = [] := rfl

theorem replaceAll_matched (s pat t : List Char) (hne : pat ≠ [])
    (hpre : pat.isPrefixOf s) (hs : s ≠ []) :
    replaceAll s pat t = t ++ replaceAll (s.drop pat.length) pat t := by
  cases s with
  | nil => exact absurd rfl hs
  | cons c s2 =>
    show replaceAllAux pat t (s2.length + 1) (c :: s2) = _
    rw [replaceAllAux_cons, if_pos ⟨hne, hpre⟩]
    apply congrArg (t ++ ·)
    apply replaceAllAux_fuel
    · rw [List.length_drop, List.length_cons]
      have : 1 ≤ pat.length := List.length_pos.mpr hne
      omega
    · exact le_refl _

theorem replaceAll_unmatched (c : Char) (s2 pat t : List Char)
    (h : ¬(pat ≠ [] ∧ pat.isPrefixOf (c :: s2))) :
    replaceAll (c :: s2) pat t = c :: replaceAll s2 pat t := by
  show replaceAllAux pat t (s2.length + 1) (c :: s2) = _
  rw [replaceAllAux_cons, if_neg h]
  rfl

/-! ### replaceAll passes over '@'-free text and over other variable names -/

theorem atFree_tail (c : Char) (u : List Char) (h : atFree (c :: u)) : atFree u :=
  fun h2 => h (List.mem_cons_of_mem _ h2)

theorem replaceAll_append_atFree (pat t : List Char) (hpat : ∃ m, pat = '@' :: m) :
    ∀ (u v : List Char), atFree u →
      replaceAll (u ++ v) pat t = u ++ replaceAll v pat t := by
  intro u
  induction u with
  | nil =>
    intro v _
    rfl
  | cons c u2 ih =>
    intro v hu
    have hc : c ≠ '@' := by
      intro hc
      exact hu (by rw [hc]; exact List.mem_cons_self _ _)
    have hnp : ¬(pat ≠ [] ∧ pat.isPrefixOf (c :: (u2 ++ v))) := by
      rintro ⟨hne, hpre⟩
      obtain ⟨m, rfl⟩ := hpat
      rw [List.isPrefixOf] at hpre
      have := (Bool.and_eq_true _ _).mp hpre
      have h2 : '@' = c := by
        have := this.1
        exact beq_iff_eq.mp this
      exact hc h2.symm
    rw [List.cons_append, replaceAll_unmatched _ _ _ _ hnp, ih v (atFree_tail _ _ hu)]
    rfl

theorem replaceAll_name_head (pat t : List Char) (hpat : atName pat)
    (n v : List Char) (hn : atName n)
    (h1 : ¬ pat <+: n) (h2 : ¬ n <+: pat) :
    replaceAll (n ++ v) pat t = n ++ replaceAll v pat t := by
  obtain ⟨mn, hneq, hmn⟩ := hn
  obtain ⟨mp, hpeq, hmp⟩ := hpat
  subst hneq
  have hnp : ¬(pat ≠ [] ∧ pat.isPrefixOf ('@' :: (mn ++ v))) := by
    rintro ⟨hne, hpre⟩
    have hpre2 : pat <+: (('@' :: mn) ++ v) := by
      rw [← List.isPrefixOf_iff_prefix]
      exact hpre
    have hn2 : ('@' :: mn) <+: (('@' :: mn) ++ v) := List.prefix_append _ _
    rcases List.prefix_or_prefix_of_prefix hpre2 hn2 with hc | hc
    · exact h1 hc
    · exact h2 hc
  show replaceAll ('@' :: (mn ++ v)) pat t = '@' :: (mn ++ replaceAll v pat t)
  rw [replaceAll_unmatched '@' (mn ++ v) pat t hnp,
    replaceAll_append_atFree pat t ⟨mp, hpeq⟩ mn v hmn]

theorem replaceAll_self_head (pat v t : List Char) (hne : pat ≠ []) :
    replaceAll (pat ++ v) pat t = t ++ replaceAll v pat t := by
  cases hp : pat with
  | nil => exact absurd hp hne
  | cons c p2 =>
    rw [← hp]
    have hsne : pat ++ v ≠ [] := by
      rw [hp]
      exact List.cons_ne_nil _ _
    have hpre : pat.isPrefixOf (pat ++ v) := by
      rw [List.isPrefixOf_iff_prefix]
      exact List.prefix_append _ _
    rw [replaceAll_matched _ _ _ hne hpre hsne, List.drop_left]

/-! ### One replaceAll pass on a decomposed template -/

theorem map_congr_mem {α β : Type} (f g : α → β) (l : List α)
    (h : ∀ a ∈ l, f a = g a) : l.map f = l.map g := by
  induction l with
  | nil => rfl
  | cons a l2 ih =>
    rw [List.map_cons, List.map_cons, h a (List.mem_cons_self _ _),
      ih (fun a2 h2 => h a2 (List.mem_cons_of_mem _ h2))]

theorem replaceAll_render (pat t : List Char) (hpat : atName pat) :
    ∀ ps : List TmplPiece,
      (∀ u, TmplPiece.seg u ∈ ps → atFree u) →
      (∀ n, TmplPiece.hole n ∈ ps → atName n ∧
        (pat ≠ n → ¬ pat <+: n ∧ ¬ n <+: pat)) →
      replaceAll (renderT ps) pat t = renderT (ps.map (applyOne pat t)) := by
  have hpatne : pat ≠ [] := by
    obtain ⟨m, hm, _⟩ := hpat
    rw [hm]
    exact List.cons_ne_nil _ _
  intro ps
  induction ps with
  | nil =>
    intro _ _
    rfl
  | cons p ps2 ih =>
    intro hsegs hholes
    have ihh := ih (fun u hu => hsegs u (List.mem_cons_of_mem _ hu))
      (fun n hn => hholes n (List.mem_cons_of_mem _ hn))
    cases p with
    | seg u =>
      have hu : atFree u := hsegs u (List.mem_cons_self _ _)
      show replaceAll (u ++ renderT ps2) pat t =
        renderT (applyOne pat t (.seg u) :: ps2.map (applyOne pat t))
      obtain ⟨m, hm, _⟩ := hpat
      rw [replaceAll_append_atFree pat t ⟨m, hm⟩ u _ hu, ihh]
      rfl
    | hole n =>
      have hn := hholes n (List.mem_cons_self _ _)
      by_cases heq : pat = n
      · subst heq
        show replaceAll (pat ++ renderT ps2) pat t =
          renderT (applyOne pat t (.hole pat) :: ps2.map (applyOne pat t))
        have ha : applyOne pat t (.hole pat) = .seg t := by
          rw [applyOne]
          exact if_pos rfl
        rw [replaceAll_self_head pat _ t hpatne, ihh, ha]
        rfl
      · show replaceAll (n ++ renderT ps2) pat t =
          renderT (applyOne pat t (.hole n) :: ps2.map (applyOne pat t))
        have ha : applyOne pat t (.hole n) = .hole n := by
          rw [applyOne]
          exact if_neg (fun hh => heq hh.symm)
        rw [replaceAll_name_head pat t hpat n _ hn.1 (hn.2 heq).1 (hn.2 heq).2, ihh, ha]
        rfl

/-! ### Folding all bindings over a decomposed template -/

theorem buildReplacement_subst :
    ∀ (L : List (List Char × List Char)) (ps : List TmplPiece),
      (∀ kv ∈ L, atName kv.1 ∧ atFree kv.2) →
      (∀ u, TmplPiece.seg u ∈ ps → atFree u) →
      (∀ n, TmplPiece.hole n ∈ ps → atName n ∧
        ∀ kv ∈ L, kv.1 ≠ n → ¬ kv.1 <+: n ∧ ¬ n <+: kv.1) →
      buildReplacement (renderT ps) L = renderT (ps.map (applyList L)) := by
  intro L
  induction L with
  | nil =>
    intro ps _ _ _
    show renderT ps = renderT (ps.map (applyList []))
    apply congrArg
    have h2 : ps.map (applyList []) = ps.map id := map_congr_mem _ _ _ (fun p _ => rfl)
    rw [h2, List.map_id]
  | cons kv L2 ih =>
    obtain ⟨k, v⟩ := kv
    intro ps hL hsegs hholes
    have hk := hL (k, v) (List.mem_cons_self _ _)
    show buildReplacement (replaceAll (renderT ps) k v) L2 = _
    rw [replaceAll_render k v hk.1 ps hsegs
      (fun n hn => ⟨(hholes n hn).1,
        fun hne => (hholes n hn).2 (k, v) (List.mem_cons_self _ _) hne⟩)]
    rw [ih (ps.map (applyOne k v)) (fun kv2 h2 => hL kv2 (List.mem_cons_of_mem _ h2))
      ?_ ?_]
    · rw [List.map_map]
      exact congrArg _ (map_congr_mem _ _ _ (fun p _ => rfl))
    · intro u hu
      rw [List.mem_map] at hu
      obtain ⟨p, hp, hap⟩ := hu
      cases p with
      | seg u0 =>
        rw [show applyOne k v (.seg u0) = .seg u0 from rfl] at hap
        injection hap with hap
        subst hap
        exact hsegs u0 hp
      | hole n0 =>
        by_cases hnk : n0 = k
        · have ha : applyOne k v (.hole n0) = .seg v := by
            rw [applyOne]
            exact if_pos hnk
          rw [ha] at hap
          injection hap with hap
          subst hap
          exact hk.2
        · have ha : applyOne k v (.hole n0) = .hole n0 := by
            rw [applyOne]
            exact if_neg hnk
          rw [ha] at hap
          exact TmplPiece.noConfusion hap
    · intro n hn
      rw [List.mem_map] at hn
      obtain ⟨p, hp, hap⟩ := hn
      cases p with
      | seg u0 =>
        rw [show applyOne k v (.seg u0) = .seg u0 from rfl] at hap
        exact TmplPiece.noConfusion hap
      | hole n0 =>
        by_cases hnk : n0 = k
        · have ha : applyOne k v (.hole n0) = .seg v := by
            rw [applyOne]
            exact if_pos hnk
          rw [ha] at hap
          exact TmplPiece.noConfusion hap
        · have ha : applyOne k v (.hole n0) = .hole n0 := by
            rw [applyOne]
            exact if_neg hnk
          rw [ha] at hap
          injection hap with hap
          subst hap
          exact ⟨(hholes n0 hp).1,
            fun kv2 h2 hne => (hholes n0 hp).2 kv2 (List.mem_cons_of_mem _ h2) hne⟩

/-! ### applyList is a key lookup, invariant under permutations -/

theorem applyList_seg (u : List Char) :
    ∀ L : List (List Char × List Char), applyList L (.seg u) = .seg u := by
  intro L
  induction L with
  | nil => rfl
  | cons kv L2 ih =>
    obtain ⟨k, v⟩ := kv
    show applyList L2 (applyOne k v (.seg u)) = _
    rw [show applyOne k v (.seg u) = .seg u from rfl]
    exact ih

theorem applyList_hole (n : List Char) :
    ∀ L : List (List Char × List Char),
      applyList L (.hole n) =
        (match lookupKey L n with
         | some v => TmplPiece.seg v
         | none => TmplPiece.hole n) := by
  intro L
  induction L with
  | nil => rfl
  | cons kv L2 ih =>
    obtain ⟨k, v⟩ := kv
    show applyList L2 (applyOne k v (.hole n)) = _
    by_cases hnk : n = k
    · have ha : applyOne k v (.hole n) = .seg v := by
        rw [applyOne]
        exact if_pos hnk
      rw [ha, applyList_seg]
      rw [lookupKey, if_pos hnk]
    · have ha : applyOne k v (.hole n) = .hole n := by
        rw [applyOne]
        exact if_neg hnk
      rw [ha, ih]
      rw [lookupKey, if_neg hnk]

theorem lookupKey_perm (n : List Char) (L1 L2 : List (List Char × List Char))
    (hperm : L1.Perm L2) : (L1.map Prod.fst).Nodup →
      lookupKey L1 n = lookupKey L2 n := by
  induction hperm with
  | nil =>
    intro _
    rfl
  | cons x h ih =>
    intro hnd
    obtain ⟨k, v⟩ := x
    rw [lookupKey, lookupKey]
    rw [List.map_cons, List.nodup_cons] at hnd
    by_cases he : n = k
    · rw [if_pos he, if_pos he]
    · rw [if_neg he, if_neg he]
      exact ih hnd.2
  | swap x y l =>
    intro hnd
    obtain ⟨kx, vx⟩ := x
    obtain ⟨ky, vy⟩ := y
    rw [List.map_cons, List.map_cons, List.nodup_cons, List.nodup_cons] at hnd
    have hxy : ky ≠ kx := fun he => hnd.1 (by rw [he]; exact List.mem_cons_self _ _)
    by_cases h1 : n = ky
    · rw [lookupKey, if_pos h1, lookupKey, if_neg (by rw [h1]; exact hxy),
        lookupKey, if_pos h1]
    · rw [lookupKey, if_neg h1, lookupKey, lookupKey]
      by_cases h2 : n = kx
      · rw [if_pos h2, if_pos h2]
      · rw [if_neg h2, if_neg h2, lookupKey, if_neg h1]
  | trans h12 h23 ih1 ih2 =>
    intro hnd
    rw [ih1 hnd, ih2 ((h12.map Prod.fst).nodup_iff.mp hnd)]

/-! ### Order invariance of the substitution fold -/

theorem buildReplacement_order_invariant (ps : List TmplPiece)
    (L1 L2 : List (List Char × List Char))
    (hperm : L1.Perm L2) (hnd : (L1.map Prod.fst).Nodup)
    (hL : ∀ kv ∈ L1, atName kv.1 ∧ atFree kv.2)
    (hsegs : ∀ u, TmplPiece.seg u ∈ ps → atFree u)
    (hholes : ∀ n, TmplPiece.hole n ∈ ps → atName n ∧
      ∀ kv ∈ L1, kv.1 ≠ n → ¬ kv.1 <+: n ∧ ¬ n <+: kv.1) :
    buildReplacement (renderT ps) L1 = buildReplacement (renderT ps) L2 := by
  have hmem : ∀ kv, kv ∈ L2 → kv ∈ L1 := fun kv h => hperm.mem_iff.mpr h
  rw [buildReplacement_subst L1 ps hL hsegs hholes,
    buildReplacement_subst L2 ps (fun kv h => hL kv (hmem kv h)) hsegs
      (fun n hn => ⟨(hholes n hn).1,
        fun kv h2 hne => (hholes n hn).2 kv (hmem kv h2) hne⟩)]
  apply congrArg
  apply map_congr_mem
  intro p _
  cases p with
  | seg u => rw [applyList_seg, applyList_seg]
  | hole n => rw [applyList_hole, applyList_hole, lookupKey_perm n L1 L2 hperm hnd]

/-! ### Claim theorems -/

/-- Claim C1 witness at a concrete mixed-case subject. -/
theorem search_case_insensitive_captures_original_witness :
    parseSearchPattern "f(@x) end".data =
      .ok [⟨"f".data, false⟩, ⟨"(".data, false⟩, ⟨"@x".data, true⟩,
           ⟨")".data, false⟩, ⟨"end".data, false⟩] ∧
    search "F((A+B)) END".data
        [⟨"f".data, false⟩, ⟨"(".data, false⟩, ⟨"@x".data, true⟩,
         ⟨")".data, false⟩, ⟨"end".data, false⟩] =
      .ok (some ⟨0, 12, [("@x".data, "(A+B)".data)]⟩) ∧
    (search (toLowerCase "F((A+B)) END".data)
        [⟨"f".data, false⟩, ⟨"(".data, false⟩, ⟨"@x".data, true⟩,
         ⟨")".data, false⟩, ⟨"end".data, false⟩] =
      .ok (some ⟨0, 12, lowerBinds [("@x".data, "(A+B)".data)]⟩) ∧
    (∀ kv ∈ [("@x".data, "(A+B)".data)], ∃ a b, a ≤ b ∧
      b ≤ "F((A+B)) END".data.length ∧
      (a = 0 ∨ ∃ ts1 t, tokenize (toLowerCase "F((A+B)) END".data) = .ok ts1 ∧
        t ∈ ts1 ∧ a = t.endPos) ∧
      (∃ ts1 t, tokenize (toLowerCase "F((A+B)) END".data) = .ok ts1 ∧
        t ∈ ts1 ∧ b = t.start) ∧
      kv.2 = substrC "F((A+B)) END".data a (b - a)) ∧
    0 < 12 ∧ 12 ≤ "F((A+B)) END".data.length) :=
  ⟨by decide, by decide,
    search_case_insensitive_captures_original "f(@x) end".data "F((A+B)) END".data
      [⟨"f".data, false⟩, ⟨"(".data, false⟩, ⟨"@x".data, true⟩,
       ⟨")".data, false⟩, ⟨"end".data, false⟩]
      ⟨0, 12, [("@x".data, "(A+B)".data)]⟩ (by decide) (by decide)⟩

/-- Claim C2: compiling the pattern "f(@x) end" and searching the subject
"f((1+2)) end" succeeds, binding @x to "(1+2)": the ')' right after '2' is
absorbed by the nesting stack (it pops the '(' pushed for the inner paren),
only the stack-balanced final ')' terminates the capture, and the literal
block "end" then matches, giving the full match [0, 12). -/
theorem search_paren_transparency_example :
    (parseSearchPattern "f(@x) end".data).bind
        (fun P => search "f((1+2)) end".data P) =
      .ok (some ⟨0, 12, [("@x".data, "(1+2)".data)]⟩) := by decide

/-- Claim C3 counterexample: the pattern "select @cols from @tbl" ends with a
variable block, so parseSearchPattern throws the pattern error instead of
compiling; the claimed match can never be attempted. -/
theorem compile_trailing_variable_pattern_rejected :
    parseSearchPattern "select @cols from @tbl".data = .error .patternError := by decide

/-- Claim C3 (amended): with a terminating literal added, pattern
"select @cols from @tbl;" matched against subject "SELECT a, b FROM orders;"
compiles and matches, binding @cols to " a, b " and @tbl to " orders": a
capture starts at the end offset of the previously matched token, so it keeps
the whitespace after that token; original case of the subject is preserved in
the captures, literal matching being case-insensitive. -/
theorem search_select_example_with_terminator :
    (parseSearchPattern "select @cols from @tbl;".data).bind
        (fun P => search "SELECT a, b FROM orders;".data P) =
      .ok (some ⟨0, 24, [("@cols".data, " a, b ".data),
        ("@tbl".data, " orders".data)]⟩) := by decide

/-- Claim C4: evaluation at the failing input. On an empty pattern (or any
pattern tokenizing to zero blocks, such as a lone space) parseSearchPattern
does not throw a PatternError: it reads blocks[0] of an empty vector, an
out-of-bounds access (undefined behaviour). Patterns whose first or last block
is a variable do throw the pattern error, as the claim says. -/
theorem parseSearchPattern_empty_pattern_oob :
    parseSearchPattern [] = .error .indexOOB ∧
    parseSearchPattern " ".data = .error .indexOOB ∧
    parseSearchPattern "@x = 1".data = .error .patternError ∧
    parseSearchPattern "@x".data = .error .patternError := by decide

/-- Claim C5: evaluation at the failing inputs. The final flush of tokenize
(line 91 of the source) ignores the comment flags, so the text of an
unterminated line or block comment is emitted as a token instead of being
discarded: tokenize "--b" yields the token "-b", and tokenize "a/*x" yields
"a" and "*x". -/
theorem tokenize_unterminated_comment_leaks_token :
    tokenize "--b".data = .ok [⟨1, 3, "-b".data⟩] ∧
    tokenize "a/*x".data = .ok [⟨0, 1, "a".data⟩, ⟨2, 4, "*x".data⟩] := by decide

/-- Claim C6: evaluation at the failing inputs. When the last character of the
input is '-' or '/', the comment-opener lookahead sql.at(cursor + 1) is out of
range (the guard tests cursor < length instead of cursor + 1 < length), so
tokenize raises std::out_of_range instead of returning normally. -/
theorem tokenize_trailing_dash_raises :
    tokenize ['-'] = .error .atOutOfRange ∧
    tokenize "a-".data = .error .atOutOfRange ∧
    tokenize "a/".data = .error .atOutOfRange := by decide

/-- Claim C7 counterexample: a reachable match (pattern "a @x b @y c" against
subject "a @y b z c") binds @x to a value that contains the other variable's
name, and then the two application orders of the replaceAll substitutions give
different replacement strings for the template "<@x>". -/
theorem buildReplacement_order_dependent_example :
    (parseSearchPattern "a @x b @y c".data).bind
        (fun P => search "a @y b z c".data P) =
      .ok (some ⟨0, 10, [("@x".data, " @y ".data), ("@y".data, " z ".data)]⟩) ∧
    buildReplacement "<@x>".data
        [("@x".data, " @y ".data), ("@y".data, " z ".data)] ≠
      buildReplacement "<@x>".data
        [("@y".data, " z ".data), ("@x".data, " @y ".data)] := by decide

/-- Claim C7 (amended): searchAndReplace builds its replacement by applying
replaceAll to the template once for every variable bound by the match (the
buildReplacement fold over the whole binding map, spliced into the subject),
and the resulting replacement string is the same for every application order
of the distinct bindings provided the template decomposes into '@'-free
segments and occurrences of variable names, every binding key is '@' followed
by '@'-free text, no binding key is prefix-related to a different name
occurring in the template, and no bound value contains '@'; without these
provisos the order can matter. -/
theorem searchAndReplace_substitution_each_and_order :
    (∀ (fuel : Nat) (sql tmpl : List Char) (P : List Block) (m : MatchedPattern),
      search sql P = .ok (some m) →
      searchAndReplace (fuel + 1) sql P tmpl =
        searchAndReplace fuel
          (sql.take m.start ++ buildReplacement tmpl m.variableToValue ++
            sql.drop m.endPos) P tmpl) ∧
    (∀ (ps : List TmplPiece) (L1 L2 : List (List Char × List Char)),
      L1.Perm L2 →
      (L1.map Prod.fst).Nodup →
      (∀ kv ∈ L1, atName kv.1 ∧ atFree kv.2) →
      (∀ p ∈ ps, pieceOK L1 p) →
      buildReplacement (renderT ps) L1 = buildReplacement (renderT ps) L2) := by
  constructor
  · intro fuel sql tmpl P m hm
    rw [searchAndReplace_succ, hm]
  · intro ps L1 L2 hperm hnd hL hp
    exact buildReplacement_order_invariant ps L1 L2 hperm hnd hL
      (fun u hu => hp (.seg u) hu) (fun n hn => hp (.hole n) hn)

/-- Claim C7 witness: both parts applied at concrete inputs. -/
theorem searchAndReplace_substitution_each_and_order_witness :
    search "a".data [⟨"a".data, false⟩] = .ok (some ⟨0, 1, []⟩) ∧
    searchAndReplace 1 "a".data [⟨"a".data, false⟩] "b".data =
      searchAndReplace 0 ("a".data.take 0 ++ buildReplacement "b".data [] ++
        "a".data.drop 1) [⟨"a".data, false⟩] "b".data ∧
    [("@x".data, "1".data), ("@y".data, "2".data)].Perm
      [("@y".data, "2".data), ("@x".data, "1".data)] ∧
    ([("@x".data, "1".data), ("@y".data, "2".data)].map Prod.fst).Nodup ∧
    (∀ kv ∈ [("@x".data, "1".data), ("@y".data, "2".data)],
      atName kv.1 ∧ atFree kv.2) ∧
    (∀ p ∈ [TmplPiece.seg "<".data, TmplPiece.hole "@x".data,
        TmplPiece.seg ">".data],
      pieceOK [("@x".data, "1".data), ("@y".data, "2".data)] p) ∧
    buildReplacement
        (renderT [TmplPiece.seg "<".data, TmplPiece.hole "@x".data,
          TmplPiece.seg ">".data])
        [("@x".data, "1".data), ("@y".data, "2".data)] =
      buildReplacement
        (renderT [TmplPiece.seg "<".data, TmplPiece.hole "@x".data,
          TmplPiece.seg ">".data])
        [("@y".data, "2".data), ("@x".data, "1".data)] :=
  ⟨by decide,
    searchAndReplace_substitution_each_and_order.1 0 "a".data "b".data
      [⟨"a".data, false⟩] ⟨0, 1, []⟩ (by decide),
    by decide, by decide, by decide, by decide,
    searchAndReplace_substitution_each_and_order.2
      [TmplPiece.seg "<".data, TmplPiece.hole "@x".data, TmplPiece.seg ">".data]
      [("@x".data, "1".data), ("@y".data, "2".data)]
      [("@y".data, "2".data), ("@x".data, "1".data)]
      (by decide) (by decide) (by decide) (by decide)⟩

/-- Claim C8: when a searchAndReplace loop terminates (returns within its
fuel), its result contains no further match of its pattern, so running
searchAndReplace again with the same pattern and template returns the
identical string; likewise, when a translateSql run terminates and its output
is non-self-matching (no rule of the set finds a match in it), running
translateSql again on that output returns the identical string. -/
theorem searchAndReplace_fixpoint_translate_idem (fuel : Nat)
    (sql tmpl r : List Char) (P : List Block)
    (rules : List (List Char × List Char)) (s out : List Char) (f g : Nat)
    (h : searchAndReplace fuel sql P tmpl = .ok (some r))
    (hts : translateSql f s rules = .ok (some out))
    (hnf : noFurtherMatch out rules) :
    search r P = .ok none ∧
    searchAndReplace (g + 1) r P tmpl = .ok (some r) ∧
    translateSql (g + 1) out rules = .ok (some out) := by
  have h1 := searchAndReplace_result_no_match P tmpl fuel sql r h
  exact ⟨h1, searchAndReplace_fix P tmpl r h1 g,
    translateSql_fixpoint rules out g (translateSql_rules_compile f rules s out hts) hnf⟩

/-- Claim C8 witness: pattern "a", template "b", subject "a a"; two rounds of
replacement produce "b b", which matches no further. -/
theorem searchAndReplace_fixpoint_translate_idem_witness :
    searchAndReplace 3 "a a".data [⟨"a".data, false⟩] "b".data =
      .ok (some "b b".data) ∧
    translateSql 3 "a a".data [("a".data, "b".data)] = .ok (some "b b".data) ∧
    noFurtherMatch "b b".data [("a".data, "b".data)] ∧
    (search "b b".data [⟨"a".data, false⟩] = .ok none ∧
     searchAndReplace (0 + 1) "b b".data [⟨"a".data, false⟩] "b".data =
       .ok (some "b b".data) ∧
     translateSql (0 + 1) "b b".data [("a".data, "b".data)] =
       .ok (some "b b".data)) := by
  have hnf : noFurtherMatch "b b".data [("a".data, "b".data)] := by
    intro pr hpr P hP
    rw [List.mem_singleton] at hpr
    subst hpr
    have h2 : parseSearchPattern "a".data = .ok [⟨"a".data, false⟩] := by decide
    rw [h2] at hP
    injection hP with hP
    subst hP
    decide
  exact ⟨by decide, by decide, hnf,
    searchAndReplace_fixpoint_translate_idem 3 "a a".data "b".data "b b".data
      [⟨"a".data, false⟩] [("a".data, "b".data)] "a a".data "b b".data 3 0
      (by decide) (by decide) hnf⟩

/-- Claim C9: every token of a tokenize run has offsets that index into the
input string as a well-formed half-open range, and its text equals the slice
of the original input between those offsets, even though whitespace and
comments are elided. -/
theorem tokenize_offsets_slice_original (s : List Char) (ts : List Token)
    (h : tokenize s = .ok ts) :
    ∀ t ∈ ts, t.start < t.endPos ∧ t.endPos ≤ s.length ∧
      t.text = substrC s t.start (t.endPos - t.start) :=
  fun t ht => (tokenize_good s ts h).1 t ht

/-- Claim C9 witness on an input with a comment and whitespace. -/
theorem tokenize_offsets_slice_original_witness :
    tokenize "a--b\nc".data = .ok [⟨0, 1, "a".data⟩, ⟨5, 6, "c".data⟩] ∧
    (∀ t ∈ ([⟨0, 1, "a".data⟩, ⟨5, 6, "c".data⟩] : List Token),
      t.start < t.endPos ∧ t.endPos ≤ "a--b\nc".data.length ∧
      t.text = substrC "a--b\nc".data t.start (t.endPos - t.start)) :=
  ⟨by decide, tokenize_offsets_slice_original "a--b\nc".data _ (by decide)⟩

/-- Claim C10: for every pattern that parseSearchPattern returns successfully
and every subject, search never performs an out-of-bounds read of the pattern:
parsedPattern[matchCount] is only read below the pattern length, and the
terminator lookup parsedPattern[matchCount + 1] never reads past the last
block because a compiled pattern cannot end with a variable; this covers
patterns with two adjacent variable blocks as well. -/
theorem search_pattern_indexing_inbounds (q sql : List Char) (P : List Block)
    (hP : parseSearchPattern q = .ok P) :
    search sql P ≠ .error .indexOOB := by
  obtain ⟨b0, bs, hPeq, hb0, hlastD⟩ := parseSearchPattern_shape q P hP
  subst hPeq
  intro hcontra
  unfold search at hcontra
  cases htok : tokenize (toLowerCase sql) with
  | error e =>
    rw [htok] at hcontra
    have he : e = .atOutOfRange := tokenize_error_eq _ e htok
    subst he
    have hcontra2 : (Except.error CppError.atOutOfRange :
        Except CppError (Option MatchedPattern)) = .error .indexOOB := hcontra
    injection hcontra2 with h2
    exact CppError.noConfusion h2
  | ok ts =>
    rw [htok] at hcontra
    have hcontra2 : searchLoop sql (b0 :: bs) ts 0 0 [] none [] =
        .error .indexOOB := hcontra
    exact searchLoop_no_oob sql (b0 :: bs) (List.cons_ne_nil _ _)
      (getLast_not_var_of_shape b0 bs hlastD) ts 0 0 [] none []
      (Nat.succ_pos _) hcontra2

/-- Claim C10 witness, using a pattern with two adjacent variable blocks. -/
theorem search_pattern_indexing_inbounds_witness :
    parseSearchPattern "a @x @y b".data =
      .ok [⟨"a".data, false⟩, ⟨"@x".data, true⟩, ⟨"@y".data, true⟩,
           ⟨"b".data, false⟩] ∧
    search "a u v b".data
        [⟨"a".data, false⟩, ⟨"@x".data, true⟩, ⟨"@y".data, true⟩,
         ⟨"b".data, false⟩] ≠
      .error .indexOOB :=
  ⟨by decide,
    search_pattern_indexing_inbounds "a @x @y b".data "a u v b".data
      [⟨"a".data, false⟩, ⟨"@x".data, true⟩, ⟨"@y".data, true⟩,
       ⟨"b".data, false⟩] (by decide)⟩
